import Mathlib

/-!
Verification development for the AI-NOTE live-transcription app.

The app's core (text normalizer, segmenter, enrichment queue, connection
manager) lives in `src/types.ts` (the main `App` component) with an earlier
variant of the same component in `src/unnamed/part_002`.  JavaScript strings
are sequences of UTF-16 code units and the regexes in `cleanText` /
`cleanHallucinations` run without the `u` flag, so the embedding models a
string as `List Nat`, one element per UTF-16 code unit.
-/

/-! ## Text normalizer (`cleanText` in types.ts, `cleanHallucinations` in part_002)

`cleanText` is
```
let cleaned = text.replace(/(.)\1{6,}/g, '$1');
cleaned = cleaned.replace(/(.{4,})\1{2,}/g, '$1');
return cleaned.trim();
```
`cleanHallucinations` is the same with `/(.)\1{5,}/g` and `/(.{2,})\1{2,}/g`
and no trim.  Without the `s` flag `.` matches every code unit except the
line terminators \n, \r, U+2028, U+2029.
-/

/-- Code units the JS regex `.` does not match (line terminators). -/
def isLineTerm (c : Nat) : Bool :=
  c == 10 || c == 13 || c == 0x2028 || c == 0x2029

/-- Code units the JS regex `.` matches. -/
def isDot (c : Nat) : Bool := !(isLineTerm c)

/-- Code units removed by JS `String.prototype.trim` (WhiteSpace and
LineTerminator code points). -/
def isJsSpace (c : Nat) : Bool :=
  c == 9 || c == 10 || c == 11 || c == 12 || c == 13 || c == 32 ||
  c == 0xa0 || c == 0x1680 ||
  (0x2000 ≤ c && c ≤ 0x200a) ||
  c == 0x2028 || c == 0x2029 || c == 0x202f || c == 0x205f ||
  c == 0x3000 || c == 0xfeff

/-- JS `String.prototype.trim`: strip `isJsSpace` units from both ends. -/
def trimList (l : List Nat) : List Nat :=
  (((l.dropWhile isJsSpace).reverse.dropWhile isJsSpace)).reverse

/-- One global pass of `text.replace(/(.)\1{k+1,}/g, '$1')` (k = 6 in
`cleanText`, k = 5 in `cleanHallucinations`): scanning left to right, a
maximal run of one `.`-matching unit of length ≥ k+1 is replaced by a single
copy; everything else is kept.  The fuel argument only serves termination:
each step consumes at least one unit, so fuel = length suffices. -/
def runCollapseF (k : Nat) : Nat → List Nat → List Nat
  | 0, l => l
  | _ + 1, [] => []
  | f + 1, c :: rest =>
    let run := rest.takeWhile (· == c)
    let rest' := rest.dropWhile (· == c)
    if isDot c ∧ k ≤ run.length then c :: runCollapseF k f rest'
    else (c :: run) ++ runCollapseF k f rest'

def runCollapse (k : Nat) (l : List Nat) : List Nat := runCollapseF k l.length l

/-- Number of consecutive copies of `pat` at the front of `l` (the greedy
count of `\1{2,}`'s repetitions).  Fuel = length of `l` suffices because each
copy consumes `pat.length ≥ 1` units. -/
def countCopiesF (pat : List Nat) : Nat → List Nat → Nat
  | 0, _ => 0
  | f + 1, l =>
    if !pat.isEmpty && pat.isPrefixOf l then countCopiesF pat f (l.drop pat.length) + 1
    else 0

def countCopies (pat l : List Nat) : Nat := countCopiesF pat l.length l

/-- Backtracking search of `(.{m,})\1{2,}` anchored at the current position:
the greedy `.{m,}` tries capture lengths from `L` (the number of
`.`-matchable units available) down to `m`; the first length whose capture is
followed by at least two further copies wins, and `\1{2,}` greedily takes
every copy.  Returns the capture and the total match length. -/
def findRep (m : Nat) (l : List Nat) : Nat → Option (List Nat × Nat)
  | 0 => none
  | L + 1 =>
    if L + 1 < m then none
    else
      let pat := l.take (L + 1)
      let k := countCopies pat (l.drop (L + 1))
      if 2 ≤ k then some (pat, (L + 1) * (k + 1)) else findRep m l L

/-- Units at the front of `l` that `.` can match. -/
def dotPrefixLen (l : List Nat) : Nat := (l.takeWhile isDot).length

/-- One global pass of `text.replace(/(.{m,})\1{2,}/g, '$1')` (m = 4 in
`cleanText`, m = 2 in `cleanHallucinations`): scan left to right; at each
position try the anchored match; on success emit one copy of the capture and
resume after the whole match (the replacement is not rescanned), otherwise
emit the unit and move on.  Fuel = length suffices: a successful match
consumes at least 3·m ≥ 3 units. -/
def phraseCollapseF (m : Nat) : Nat → List Nat → List Nat
  | 0, l => l
  | _ + 1, [] => []
  | f + 1, c :: rest =>
    match findRep m (c :: rest) (dotPrefixLen (c :: rest)) with
    | some (pat, mlen) => pat ++ phraseCollapseF m f ((c :: rest).drop mlen)
    | none => c :: phraseCollapseF m f rest

def phraseCollapse (m : Nat) (l : List Nat) : List Nat := phraseCollapseF m l.length l

/-- `cleanText` from types.ts: `if (!text) return "";` then the two
replacements (thresholds 7-long runs, 4-long phrases) and `trim()`. -/
def cleanText (l : List Nat) : List Nat :=
  if l.isEmpty then [] else trimList (phraseCollapse 4 (runCollapse 6 l))

/-- `cleanHallucinations` from part_002: thresholds 6-long runs and 2-long
phrases, and no trim. -/
def cleanHallucinations (l : List Nat) : List Nat :=
  phraseCollapse 2 (runCollapse 5 l)

/-- UTF-16 encoding of one code point, as produced by a JS string literal. -/
def encodeU16 (c : Nat) : List Nat :=
  if c < 0x10000 then [c]
  else [0xd800 + (c - 0x10000) / 0x400, 0xdc00 + (c - 0x10000) % 0x400]

/-- UTF-16 encoding of a sequence of code points. -/
def utf16 : List Nat → List Nat
  | [] => []
  | c :: rest => encodeU16 c ++ utf16 rest

/-! ## Data model (types.ts) -/

/-- `RecorderStatus` enum from types.ts. -/
inductive RecorderStatus
  | idle
  | recording
  | paused
  | error
deriving DecidableEq, Repr

/-- `TranscriptionSegment` from types.ts.  `id` is abstracted to a `Nat`
drawn from a per-state counter (the source uses a random base-36 string;
only identity matters). -/
structure Segment where
  id : Nat
  startTime : Nat
  endTime : Nat
  text : List Nat
  translatedText : Option (List Nat) := none
  isFinal : Bool := true
deriving DecidableEq, Repr

/-- A queued enrichment job: `{id, type: 'polish' | 'translate', retryCount}`. -/
inductive JobType
  | polish
  | translate
deriving DecidableEq, Repr

structure QItem where
  id : Nat
  type : JobType
  retryCount : Nat
deriving DecidableEq, Repr

/-- `RecordingSession` from types.ts, restricted to the fields the claims
touch (title, date and analysis are presentation-only strings). -/
structure Session where
  id : Nat
  segments : List Segment
  duration : Nat
deriving DecidableEq, Repr

/-- The App component's state relevant to segmentation and the queue:
`transcriptionBufferRef`, `segmentsRef`, `lastSegmentTimeRef`, `elapsedTime`,
`processingQueueRef`, `sessions`, `viewingSessionId`, `status`, `isBilingual`
and the id counter standing in for the random id generator. -/
structure AppState where
  status : RecorderStatus
  buffer : List Nat
  segments : List Segment
  lastSegmentTime : Nat
  elapsedTime : Nat
  queue : List QItem
  sessions : List Session
  viewingSessionId : Option Nat
  isBilingual : Bool
  nextId : Nat
deriving DecidableEq, Repr

/-! ## Segmenter -/

/-- `finalizeCurrentSegment` from types.ts:
```
const text = cleanText(transcriptionBufferRef.current);
if (!text || text.length < 2) return;
const newSegment = { id: …, startTime: lastSegmentTimeRef.current,
  endTime: elapsedTime, text, isFinal: true };
segmentsRef.current = [...segmentsRef.current, newSegment];
transcriptionBufferRef.current = '';
lastSegmentTimeRef.current = elapsedTime;
processingQueueRef.current.push({ id, type: 'polish', retryCount: 0 });
if (isBilingual) processingQueueRef.current.push({ id, type: 'translate', retryCount: 0 });
```
Note the early return leaves the whole state (including the buffer)
untouched, and `endTime` is not clamped. -/
def finalizeCurrentSegment (st : AppState) : AppState :=
  let text := cleanText st.buffer
  if text.isEmpty ∨ text.length < 2 then st
  else
    let seg : Segment :=
      { id := st.nextId, startTime := st.lastSegmentTime, endTime := st.elapsedTime,
        text := text, translatedText := none, isFinal := true }
    { st with
      segments := st.segments ++ [seg],
      buffer := [],
      lastSegmentTime := st.elapsedTime,
      queue := st.queue ++ [⟨seg.id, .polish, 0⟩] ++
        (if st.isBilingual then [⟨seg.id, .translate, 0⟩] else []),
      nextId := st.nextId + 1 }

/-- `finalizeCurrentSegment` from part_002:
```
const text = cleanHallucinations(transcriptionBufferRef.current.trim());
if (!text || text.length < 1) return;
const endTime = elapsedTime;
const newSegment = { …, startTime, endTime: Math.max(endTime, startTime + 1), … };
…
lastSegmentTimeRef.current = newSegment.endTime;
```
Here `endTime` is clamped to `startTime + 1` and the floor is 1 (empty only). -/
def finalizeCurrentSegmentV2 (st : AppState) : AppState :=
  let text := cleanHallucinations (trimList st.buffer)
  if text.isEmpty ∨ text.length < 1 then st
  else
    let seg : Segment :=
      { id := st.nextId, startTime := st.lastSegmentTime,
        endTime := max st.elapsedTime (st.lastSegmentTime + 1),
        text := text, translatedText := none, isFinal := true }
    { st with
      segments := st.segments ++ [seg],
      buffer := [],
      lastSegmentTime := seg.endTime,
      queue := st.queue ++ [⟨seg.id, .polish, 0⟩] ++
        (if st.isBilingual then [⟨seg.id, .translate, 0⟩] else []),
      nextId := st.nextId + 1 }

/-- Events driving the segmenter: an inbound transcript delta (appended to
the buffer), a one-second timer tick of `elapsedTime`, and a finalize
trigger (length / punctuation / turn-complete / stop all funnel into
`finalizeCurrentSegment`). -/
inductive SegEvent
  | delta (t : List Nat)
  | tick
  | finalize
deriving DecidableEq, Repr

/-- types.ts `onmessage`: `transcriptionBufferRef.current += textChunk`. -/
def applyEvent (st : AppState) : SegEvent → AppState
  | .delta t => { st with buffer := st.buffer ++ t }
  | .tick => { st with elapsedTime := st.elapsedTime + 1 }
  | .finalize => finalizeCurrentSegment st

/-- part_002 `onmessage` additionally cleans the chunk before appending:
`textChunk = cleanHallucinations(textChunk); buffer += textChunk`. -/
def applyEventV2 (st : AppState) : SegEvent → AppState
  | .delta t => { st with buffer := st.buffer ++ cleanHallucinations t }
  | .tick => { st with elapsedTime := st.elapsedTime + 1 }
  | .finalize => finalizeCurrentSegmentV2 st

def runEvents (st : AppState) (evs : List SegEvent) : AppState :=
  evs.foldl applyEvent st

def runEventsV2 (st : AppState) (evs : List SegEvent) : AppState :=
  evs.foldl applyEventV2 st

/-- The state `startRecording` establishes (both variants reset the buffer,
segments, timers and queue); `sessions` and `isBilingual` carry over. -/
def initApp (b : Bool) (sessions : List Session) : AppState :=
  { status := .recording, buffer := [], segments := [], lastSegmentTime := 0,
    elapsedTime := 0, queue := [], sessions := sessions,
    viewingSessionId := none, isBilingual := b, nextId := 0 }

/-! ## Stop semantics -/

/-- The collection `processQueue` resolves segment ids against:
`viewingSessionId ? sessions.find(s => s.id === viewingSessionId)?.segments : segments`. -/
def activeSegments (st : AppState) : Option (List Segment) :=
  match st.viewingSessionId with
  | some sid => (st.sessions.find? (fun s => s.id == sid)).map Session.segments
  | none => some st.segments

/-- `stopRecording` from types.ts: final flush, archive the live segments as
a new session, switch the view to it and clear the live list.  The
processing queue is left untouched. -/
def stopRecording (st : AppState) : AppState :=
  if st.status = .idle then st
  else
    let st1 := finalizeCurrentSegment st
    let sess : Session := { id := st1.nextId, segments := st1.segments, duration := st1.elapsedTime }
    { st1 with
      sessions := sess :: st1.sessions,
      status := .idle,
      viewingSessionId := some sess.id,
      segments := [],
      nextId := st1.nextId + 1 }

/-- `stopRecording` from part_002: same shape, but it ends with
`processingQueueRef.current = [];`, discarding every queued job. -/
def stopRecordingV2 (st : AppState) : AppState :=
  if st.status = .idle then st
  else
    let st1 := finalizeCurrentSegmentV2 st
    let sess : Session := { id := st1.nextId, segments := st1.segments, duration := st1.elapsedTime }
    { st1 with
      sessions := sess :: st1.sessions,
      status := .idle,
      viewingSessionId := some sess.id,
      segments := [],
      queue := [],
      nextId := st1.nextId + 1 }

/-! ## Connection manager (types.ts `connectToLive` callbacks) -/

/-- Connection-retry state: `connectionRetryCount`, the mirrored
`statusRef`, and the reconnect delay registered by the latest error (the
argument of `setTimeout(connectToLive, backoff)`), if any. -/
structure ConnState where
  retryCount : Nat
  status : RecorderStatus
  scheduledReconnectMs : Option Nat
deriving DecidableEq, Repr

/-- The `onerror` callback of types.ts:
```
if (connectionRetryCount.current < 5 && statusRef.current !== RecorderStatus.IDLE) {
  connectionRetryCount.current++;
  const backoff = Math.min(15000, Math.pow(2, connectionRetryCount.current) * 1000);
  setTimeout(connectToLive, backoff);
} else if (connectionRetryCount.current >= 5) {
  setStatus(RecorderStatus.ERROR);
}
```
The counter is incremented before the backoff is computed. -/
def liveOnError (s : ConnState) : ConnState :=
  if s.retryCount < 5 ∧ s.status ≠ .idle then
    let rc := s.retryCount + 1
    { s with retryCount := rc, scheduledReconnectMs := some (min 15000 (2 ^ rc * 1000)) }
  else if 5 ≤ s.retryCount then { s with status := .error }
  else s

/-- The `onopen` callback: `connectionRetryCount.current = 0;`. -/
def liveOnOpen (s : ConnState) : ConnState := { s with retryCount := 0 }

/-! ## Enrichment queue (types.ts `processQueue` and the result appliers)

`processQueue` runs on the single JS thread.  Its synchronous prefix —
the `isProcessingRef` check, the `shift`, segment resolution (including the
synchronous recursive drop of unresolvable jobs) and `isProcessingRef
= true` — is atomic; it then suspends awaiting the external call, resumes to
handle the outcome, optionally suspends again for the cooldown, and finally
clears the flag.  The machine below makes each such atomic block one step,
with suspended continuations kept in a list so that an interleaving of many
`processQueue` invocations, timer callbacks and enqueues is representable. -/

/-- `response.text?.trim() || segment.text`: the polish result applied to a
segment's text (`none` models an undefined `response.text`). -/
def respTrim (out : Option (List Nat)) : List Nat :=
  (out.map trimList).getD []

def polishedText (out : Option (List Nat)) (old : List Nat) : List Nat :=
  let t := respTrim out
  if t.isEmpty then old else t

/-- `response.text?.trim() || ""`: the translate result. -/
def translatedOf (out : Option (List Nat)) : List Nat := respTrim out

/-- `polishSegment`'s successful update: replace `text` by id. -/
def applyPolish (segs : List Segment) (i : Nat) (out : Option (List Nat)) : List Segment :=
  segs.map fun s => if s.id == i then { s with text := polishedText out s.text } else s

/-- `translateSegment`'s successful update: set `translatedText` by id. -/
def applyTranslate (segs : List Segment) (i : Nat) (out : Option (List Nat)) : List Segment :=
  segs.map fun s => if s.id == i then { s with translatedText := some (translatedOf out) } else s

/-- A suspended `processQueue` continuation: awaiting the external
refinement call, or awaiting the post-success cooldown (the busy flag is
still set in both). -/
inductive WCont
  | calling (item : QItem)
  | cooling (item : QItem)
deriving DecidableEq, Repr

def WCont.isCalling : WCont → Bool
  | .calling _ => true
  | .cooling _ => false

/-- Queue-machine state: the FIFO `processingQueueRef`, the busy flag
`isProcessingRef`, the suspended continuations, the backoff timers
registered by `setTimeout` (delay in ms, item to push), the authoritative
segment list the worker resolves against, and `isBilingual`. -/
structure QState where
  queue : List QItem
  busy : Bool
  conts : List WCont
  retryTimers : List (Nat × QItem)
  segs : List Segment
  isBilingual : Bool
deriving DecidableEq, Repr

/-- The synchronous head of `processQueue`: `shift` jobs, dropping each one
whose segment id no longer resolves (the code recurses synchronously on
those), until one resolves or the queue is exhausted. -/
def popResolvable (segs : List Segment) : List QItem → Option (QItem × List QItem)
  | [] => none
  | item :: rest =>
    if (segs.find? (fun s => s.id == item.id)).isSome then some (item, rest)
    else popResolvable segs rest

/-- Remove the first awaiting-call continuation, returning it and the rest. -/
def extractCalling : List WCont → Option (QItem × List WCont)
  | [] => none
  | .calling item :: rest => some (item, rest)
  | .cooling item :: rest =>
    match extractCalling rest with
    | some (it, others) => some (it, .cooling item :: others)
    | none => none

/-- Remove the first awaiting-cooldown continuation. -/
def extractCooling : List WCont → Option (QItem × List WCont)
  | [] => none
  | .cooling item :: rest => some (item, rest)
  | .calling item :: rest =>
    match extractCooling rest with
    | some (it, others) => some (it, .calling item :: others)
    | none => none

/-- Scheduler events: a `processQueue` invocation (from the effect hook, a
timer, or the recursive call), settlement of the awaited external call
(`ok = false` models a thrown/failed request, in which case no result is
applied), completion of a cooldown, a backoff timer firing, and a plain
enqueue from `finalizeCurrentSegment`. -/
inductive QEvent
  | invoke
  | resolve (ok : Bool) (out : Option (List Nat))
  | cooldownDone
  | fireTimer (i : Nat)
  | enqueue (item : QItem)

/-- One atomic step of the queue machine, following types.ts `processQueue`:

* `invoke`: `if (isProcessingRef.current || queue.length === 0) return;`
  then shift/resolve; a resolvable polish job, or translate job with
  bilingual mode on, sets the busy flag and dispatches the external call;
  a translate job with bilingual mode off is a no-op success that proceeds
  straight to the cooldown (still under the busy flag).
* `resolve true`: the call resolved; `polishSegment`/`translateSegment`
  apply the result and return true, and the worker awaits the cooldown.
* `resolve false`: the call failed; if `retryCount < 5` a backoff timer for
  the same job with `retryCount + 1` is registered (`2^retryCount * 2000`
  ms); either way the `finally` clears the busy flag.
* `cooldownDone`: the `finally` after the cooldown clears the busy flag.
* `fireTimer i`: a backoff timer fires and pushes its job.
* `enqueue`: a finalize pushes a fresh job. -/
def queueStep (s : QState) : QEvent → QState
  | .invoke =>
    if s.busy then s
    else
      match popResolvable s.segs s.queue with
      | none => { s with queue := [] }
      | some (item, rest) =>
        let needsCall := item.type = .polish ∨ s.isBilingual
        { s with
          queue := rest,
          busy := true,
          conts := s.conts ++ [if needsCall then .calling item else .cooling item] }
  | .resolve ok out =>
    match extractCalling s.conts with
    | none => s
    | some (item, others) =>
      if ok then
        let segs' :=
          match item.type with
          | .polish => applyPolish s.segs item.id out
          | .translate => applyTranslate s.segs item.id out
        { s with segs := segs', conts := others ++ [.cooling item] }
      else if item.retryCount < 5 then
        { s with
          conts := others, busy := false,
          retryTimers := s.retryTimers ++
            [(2 ^ item.retryCount * 2000, ⟨item.id, item.type, item.retryCount + 1⟩)] }
      else { s with conts := others, busy := false }
  | .cooldownDone =>
    match extractCooling s.conts with
    | none => s
    | some (_, others) => { s with conts := others, busy := false }
  | .fireTimer i =>
    match s.retryTimers[i]? with
    | some (_, item) => { s with retryTimers := s.retryTimers.eraseIdx i, queue := s.queue ++ [item] }
    | none => s
  | .enqueue item => { s with queue := s.queue ++ [item] }

/-- The queue machine's initial state: empty queue, flag clear, nothing
suspended, no timers. -/
def initQ (segs : List Segment) (b : Bool) : QState :=
  { queue := [], busy := false, conts := [], retryTimers := [], segs := segs, isBilingual := b }

/-- States reachable from `initQ` under any interleaving of events. -/
inductive ReachableQ (segs : List Segment) (b : Bool) : QState → Prop
  | init : ReachableQ segs b (initQ segs b)
  | step {s : QState} (e : QEvent) : ReachableQ segs b s → ReachableQ segs b (queueStep s e)

/-- Number of outstanding external refinement calls. -/
def callsOutstanding (s : QState) : Nat := (s.conts.filter WCont.isCalling).length

/-! ## Auxiliary predicates and concrete inputs used by the theorems -/

/-- The timeline chain: each segment starts where the previous one ended,
beginning at `t`. -/
def chainedFrom : Nat → List Segment → Prop
  | _, [] => True
  | t, s :: rest => s.startTime = t ∧ chainedFrom s.endTime rest

/-- The end time of the last segment, `t` when there is none. -/
def lastEnd (t : Nat) : List Segment → Nat
  | [] => t
  | s :: rest => lastEnd s.endTime rest

/-- Induction invariant for the types.ts segmenter run. -/
def InvA (st : AppState) : Prop :=
  st.lastSegmentTime = lastEnd 0 st.segments ∧
  st.lastSegmentTime ≤ st.elapsedTime ∧
  chainedFrom 0 st.segments ∧
  ∀ s ∈ st.segments, s.startTime ≤ s.endTime

/-- Induction invariant for the part_002 segmenter run (clamped `endTime`). -/
def InvB (st : AppState) : Prop :=
  st.lastSegmentTime = lastEnd 0 st.segments ∧
  chainedFrom 0 st.segments ∧
  ∀ s ∈ st.segments, s.startTime < s.endTime

/-- Induction invariant for the queue machine: at most one suspended
continuation, and none at all while the busy flag is clear. -/
def QInv (s : QState) : Prop :=
  s.conts.length ≤ 1 ∧ (s.busy = false → s.conts = [])

/-- The code units of "abcdabcdabcdefghabcdefghabcdefgh".  On this input the
phrase pass collapses the leading "abcd" triple, and the single surviving
"abcd" concatenates with the following text into "abcdefgh" repeated three
times — a repetition the single left-to-right pass never revisits. -/
def sC5 : List Nat :=
  [97, 98, 99, 100, 97, 98, 99, 100, 97, 98, 99, 100,
   101, 102, 103, 104, 97, 98, 99, 100, 101, 102, 103, 104,
   97, 98, 99, 100, 101, 102, 103, 104]

/-- The code units of "hellohellohello". -/
def hello3 : List Nat :=
  [104, 101, 108, 108, 111, 104, 101, 108, 108, 111, 104, 101, 108, 108, 111]

/-- A state mid-recording whose buffer is the single unit "a": `cleanText`
leaves it as "a", whose length 1 is below the 2-unit floor. -/
def stShort : AppState :=
  { status := .recording, buffer := [97], segments := [], lastSegmentTime := 3,
    elapsedTime := 7, queue := [], sessions := [], viewingSessionId := none,
    isBilingual := false, nextId := 0 }

/-- A queue-machine state with one outstanding polish call at retryCount 0. -/
def sQW : QState :=
  { queue := [], busy := true, conts := [WCont.calling ⟨0, .polish, 0⟩],
    retryTimers := [], segs := [⟨0, 0, 1, [104, 105], none, true⟩], isBilingual := false }

/-- A recording state with one finalized segment and one queued polish job,
about to be stopped. -/
def stStop : AppState :=
  { status := .recording, buffer := [], segments := [⟨4, 0, 2, [111, 107], none, true⟩],
    lastSegmentTime := 2, elapsedTime := 5, queue := [⟨4, .polish, 1⟩], sessions := [],
    viewingSessionId := none, isBilingual := false, nextId := 6 }

/-! ## List helper lemmas -/

theorem dropWhile_dropWhile (p : Nat → Bool) :
    ∀ l : List Nat, (l.dropWhile p).dropWhile p = l.dropWhile p := by
  intro l
  induction l with
  | nil => rfl
  | cons a t ih =>
    by_cases h : p a = true
    · simp [List.dropWhile_cons, h, ih]
    · simp [List.dropWhile_cons, h]

theorem head?_dropWhile (p : Nat → Bool) :
    ∀ l : List Nat, ∀ a, (l.dropWhile p).head? = some a → p a = false := by
  intro l
  induction l with
  | nil => intro a h; simp at h
  | cons b t ih =>
    intro a h
    by_cases hb : p b = true
    · exact ih a (by simpa [List.dropWhile_cons, hb] using h)
    · simp [List.dropWhile_cons, hb] at h
      simpa [h] using (Bool.not_eq_true (p b)).mp hb

theorem dropWhile_eq_self_of_head (p : Nat → Bool) (l : List Nat)
    (h : ∀ a, l.head? = some a → p a = false) : l.dropWhile p = l := by
  cases l with
  | nil => rfl
  | cons a t => simp [List.dropWhile_cons, h a rfl]

theorem getLast?_dropWhile (p : Nat → Bool) :
    ∀ l : List Nat, l.dropWhile p ≠ [] → (l.dropWhile p).getLast? = l.getLast? := by
  intro l
  induction l with
  | nil => intro h; simp at h
  | cons a t ih =>
    intro h
    by_cases ha : p a = true
    · have hne : t.dropWhile p ≠ [] := by simpa [List.dropWhile_cons, ha] using h
      have htne : t ≠ [] := by
        intro he; rw [he] at hne; exact hne rfl
      obtain ⟨b, t', rfl⟩ : ∃ b t', t = b :: t' := by
        cases t with
        | nil => exact absurd rfl htne
        | cons b t' => exact ⟨b, t', rfl⟩
      rw [List.getLast?_cons_cons]
      simpa [List.dropWhile_cons, ha] using ih hne
    · simp [List.dropWhile_cons, ha]

theorem trimList_idem (l : List Nat) : trimList (trimList l) = trimList l := by
  by_cases hl : trimList l = []
  · rw [hl]; rfl
  · set u := l.dropWhile isJsSpace with hu
    have hru : trimList l = (u.reverse.dropWhile isJsSpace).reverse := rfl
    have hdu : u.reverse.dropWhile isJsSpace ≠ [] := by
      intro he
      apply hl
      rw [hru, he]; rfl
    -- the head of `trimList l` is the last unit of `dropWhile` over `u.reverse`,
    -- which is the last unit of `u.reverse`, i.e. the head of `u`; it fails `isJsSpace`
    have hhead : ∀ a, (trimList l).head? = some a → isJsSpace a = false := by
      intro a ha
      rw [hru, List.head?_reverse, getLast?_dropWhile _ _ hdu, List.getLast?_reverse] at ha
      exact head?_dropWhile isJsSpace l a ha
    have h1 : (trimList l).dropWhile isJsSpace = trimList l :=
      dropWhile_eq_self_of_head _ _ hhead
    show (((trimList l).dropWhile isJsSpace).reverse.dropWhile isJsSpace).reverse = trimList l
    rw [h1, hru, List.reverse_reverse, dropWhile_dropWhile]

theorem isPrefixOf_length : ∀ p l : List Nat, p.isPrefixOf l = true → p.length ≤ l.length := by
  intro p
  induction p with
  | nil => intro l _; simp
  | cons a p' ih =>
    intro l h
    cases l with
    | nil => simp [List.isPrefixOf] at h
    | cons b l' =>
      simp only [List.isPrefixOf, Bool.and_eq_true] at h
      simpa using ih l' h.2

theorem isPrefixOf_eq_append : ∀ p l : List Nat, p.isPrefixOf l = true → l = p ++ l.drop p.length := by
  intro p
  induction p with
  | nil => intro l _; simp
  | cons a p' ih =>
    intro l h
    cases l with
    | nil => simp [List.isPrefixOf] at h
    | cons b l' =>
      simp only [List.isPrefixOf, Bool.and_eq_true, beq_iff_eq] at h
      simpa [h.1] using ih l' h.2

/-! ## Normalizer lemmas -/

theorem takeWhile_beq_replicate (c : Nat) :
    ∀ k, (List.replicate k c).takeWhile (· == c) = List.replicate k c := by
  intro k
  induction k with
  | zero => rfl
  | succ k ih => simp [List.replicate_succ, List.takeWhile_cons, ih]

theorem dropWhile_beq_replicate (c : Nat) :
    ∀ k, (List.replicate k c).dropWhile (· == c) = [] := by
  intro k
  induction k with
  | zero => rfl
  | succ k ih => simp [List.replicate_succ, List.dropWhile_cons, ih]

theorem runCollapseF_nil (k : Nat) : ∀ f, runCollapseF k f [] = [] := by
  intro f; cases f <;> rfl

theorem phraseCollapseF_nil (m : Nat) : ∀ f, phraseCollapseF m f [] = [] := by
  intro f; cases f <;> rfl

theorem runCollapseF_short (k : Nat) :
    ∀ f l, l.length ≤ k → runCollapseF k f l = l := by
  intro f
  induction f with
  | zero => intro l _; rfl
  | succ f ih =>
    intro l hl
    cases l with
    | nil => rfl
    | cons c rest =>
      have hsplit := List.takeWhile_append_dropWhile (p := (· == c)) (l := rest)
      have hlen : (rest.takeWhile (· == c)).length + (rest.dropWhile (· == c)).length
          = rest.length := by
        rw [← List.length_append, hsplit]
      have hrun : ¬ (isDot c = true ∧ k ≤ (rest.takeWhile (· == c)).length) := by
        intro h
        have : rest.length + 1 ≤ k := by simpa using hl
        omega
      have hrest : (rest.dropWhile (· == c)).length ≤ k := by
        have : rest.length + 1 ≤ k := by simpa using hl
        omega
      simp only [runCollapseF, if_neg hrun]
      rw [ih _ hrest]
      simp only [List.cons_append, List.cons.injEq, true_and]
      exact hsplit

theorem countCopiesF_nil_pat : ∀ f l, countCopiesF [] f l = 0 := by
  intro f l
  cases f with
  | zero => rfl
  | succ f => simp [countCopiesF]

theorem countCopiesF_bound (pat : List Nat) :
    ∀ f l, pat.length * countCopiesF pat f l ≤ l.length := by
  intro f
  induction f with
  | zero => intro l; simp [countCopiesF]
  | succ f ih =>
    intro l
    by_cases h : (!pat.isEmpty && pat.isPrefixOf l) = true
    · have hple := isPrefixOf_length pat l (Bool.and_elim_right h)
      have hd : (l.drop pat.length).length = l.length - pat.length := by simp
      have hrec := ih (l.drop pat.length)
      simp only [countCopiesF, if_pos h]
      rw [Nat.mul_succ]
      omega
    · simp only [countCopiesF, if_neg h]
      exact Nat.zero_le _

theorem findRep_some_length (m : Nat) (l : List Nat) :
    ∀ L pat mlen, findRep m l L = some (pat, mlen) → 3 * m ≤ l.length := by
  intro L
  induction L with
  | zero => intro pat mlen h; simp [findRep] at h
  | succ L ih =>
    intro pat mlen h
    by_cases hm : L + 1 < m
    · simp [findRep, hm] at h
    · by_cases hk : 2 ≤ countCopies (l.take (L + 1)) (l.drop (L + 1))
      · have hb := countCopiesF_bound (l.take (L + 1)) (l.drop (L + 1)).length (l.drop (L + 1))
        have hpne : l.take (L + 1) ≠ [] := by
          intro he
          rw [show countCopies (l.take (L + 1)) (l.drop (L + 1))
              = countCopiesF (l.take (L + 1)) (l.drop (L + 1)).length (l.drop (L + 1)) from rfl,
            he, countCopiesF_nil_pat] at hk
          omega
        have hlpos : l ≠ [] := by
          intro he; exact hpne (by simp [he])
        have htl : (l.take (L + 1)).length = min (L + 1) l.length := by simp
        have hdl : (l.drop (L + 1)).length = l.length - (L + 1) := by simp
        -- with at least two copies after a capture of length ≥ m, the whole list has ≥ 3m units
        have h2 : (l.take (L + 1)).length * 2 ≤ (l.take (L + 1)).length *
            countCopies (l.take (L + 1)) (l.drop (L + 1)) :=
          Nat.mul_le_mul_left _ hk
        have hcase : L + 1 ≤ l.length := by
          by_contra hlt
          push_neg at hlt
          have hdz : (l.drop (L + 1)).length = 0 := by omega
          have : (l.take (L + 1)).length * 2 ≤ 0 := by
            calc (l.take (L + 1)).length * 2
                ≤ (l.take (L + 1)).length * countCopies (l.take (L + 1)) (l.drop (L + 1)) := h2
              _ ≤ (l.drop (L + 1)).length := hb
              _ = 0 := hdz
          have : (l.take (L + 1)).length = 0 := by omega
          exact hpne (List.eq_nil_of_length_eq_zero this)
        have : (L + 1) * 2 ≤ l.length - (L + 1) := by
          calc (L + 1) * 2 = (l.take (L + 1)).length * 2 := by omega
            _ ≤ _ := h2
            _ ≤ (l.drop (L + 1)).length := hb
            _ = l.length - (L + 1) := hdl
        omega
      · have hrec : findRep m l L = some (pat, mlen) := by
          simpa [findRep, hm, hk] using h
        exact ih pat mlen hrec

theorem phraseCollapseF_short (m : Nat) :
    ∀ f l, l.length < 3 * m → phraseCollapseF m f l = l := by
  intro f
  induction f with
  | zero => intro l _; rfl
  | succ f ih =>
    intro l hl
    cases l with
    | nil => rfl
    | cons c rest =>
      have hnone : findRep m (c :: rest) (dotPrefixLen (c :: rest)) = none := by
        cases hfr : findRep m (c :: rest) (dotPrefixLen (c :: rest)) with
        | none => rfl
        | some v =>
          obtain ⟨pat, mlen⟩ := v
          exact absurd (findRep_some_length m (c :: rest) _ pat mlen hfr) (by omega)
      simp only [phraseCollapseF, hnone]
      rw [ih rest (by simpa using Nat.lt_of_succ_lt hl)]

theorem dropWhile_length_le (p : Nat → Bool) (l : List Nat) :
    (l.dropWhile p).length ≤ l.length := by
  have h := congrArg List.length (List.takeWhile_append_dropWhile (p := p) (l := l))
  rw [List.length_append] at h
  omega

theorem trimList_length_le (l : List Nat) : (trimList l).length ≤ l.length := by
  unfold trimList
  calc ((l.dropWhile isJsSpace).reverse.dropWhile isJsSpace).reverse.length
      = ((l.dropWhile isJsSpace).reverse.dropWhile isJsSpace).length := List.length_reverse _
    _ ≤ (l.dropWhile isJsSpace).reverse.length := dropWhile_length_le _ _
    _ = (l.dropWhile isJsSpace).length := List.length_reverse _
    _ ≤ l.length := dropWhile_length_le _ _

theorem cleanText_short (l : List Nat) (hl : l.length < 7) :
    cleanText l = trimList l := by
  cases l with
  | nil => rfl
  | cons c rest =>
    show trimList (phraseCollapse 4 (runCollapse 6 (c :: rest))) = trimList (c :: rest)
    rw [show runCollapse 6 (c :: rest) = c :: rest from
      runCollapseF_short 6 (c :: rest).length (c :: rest) (by omega)]
    rw [show phraseCollapse 4 (c :: rest) = c :: rest from
      phraseCollapseF_short 4 (c :: rest).length (c :: rest) (by omega)]

theorem cleanText_idem_short (l : List Nat) (hl : l.length < 7) :
    cleanText (cleanText l) = cleanText l := by
  rw [cleanText_short l hl,
    cleanText_short (trimList l) (lt_of_le_of_lt (trimList_length_le l) hl),
    trimList_idem]

theorem runCollapse_replicate (k c n : Nat) (hd : isDot c = true) (hn : k + 1 ≤ n) :
    runCollapse k (List.replicate n c) = [c] := by
  obtain ⟨n', rfl⟩ : ∃ n', n = n' + 1 := ⟨n - 1, by omega⟩
  have hk : k ≤ n' := by omega
  unfold runCollapse
  rw [List.length_replicate, List.replicate_succ]
  simp [runCollapseF, takeWhile_beq_replicate, dropWhile_beq_replicate, hd, hk,
    runCollapseF_nil]

theorem trimList_single (c : Nat) (hw : isJsSpace c = false) : trimList [c] = [c] := by
  simp [trimList, List.dropWhile, hw]

theorem cleanText_replicate (c n : Nat) (hd : isDot c = true) (hw : isJsSpace c = false)
    (hn : 7 ≤ n) : cleanText (List.replicate n c) = [c] := by
  obtain ⟨n', rfl⟩ : ∃ n', n = n' + 1 := ⟨n - 1, by omega⟩
  show cleanText (List.replicate (n' + 1) c) = [c]
  rw [List.replicate_succ]
  show trimList (phraseCollapse 4 (runCollapse 6 (c :: List.replicate n' c))) = [c]
  rw [← List.replicate_succ,
    runCollapse_replicate 6 c (n' + 1) hd (by omega),
    show phraseCollapse 4 [c] = [c] from phraseCollapseF_short 4 1 [c] (by simp),
    trimList_single c hw]

theorem cleanHallucinations_replicate (c n : Nat) (hd : isDot c = true) (hn : 6 ≤ n) :
    cleanHallucinations (List.replicate n c) = [c] := by
  unfold cleanHallucinations
  rw [runCollapse_replicate 5 c n hd (by omega),
    show phraseCollapse 2 [c] = [c] from phraseCollapseF_short 2 1 [c] (by simp)]

theorem takeWhile_append_all (p : Nat → Bool) :
    ∀ u v : List Nat, (∀ a ∈ u, p a = true) → (u ++ v).takeWhile p = u ++ v.takeWhile p := by
  intro u
  induction u with
  | nil => intro v _; rfl
  | cons a t ih =>
    intro v h
    rw [List.cons_append, List.takeWhile_cons, if_pos (h a (List.mem_cons_self a t)),
      ih v fun x hx => h x (List.mem_cons_of_mem a hx), List.cons_append]

theorem dropWhile_append_all (p : Nat → Bool) :
    ∀ u v : List Nat, (∀ a ∈ u, p a = true) → (u ++ v).dropWhile p = v.dropWhile p := by
  intro u
  induction u with
  | nil => intro v _; rfl
  | cons a t ih =>
    intro v h
    rw [List.cons_append, List.dropWhile_cons, if_pos (h a (List.mem_cons_self a t)),
      ih v fun x hx => h x (List.mem_cons_of_mem a hx)]

theorem takeWhile_nil_of_head (p : Nat → Bool) (y : List Nat)
    (h : ∀ a, y.head? = some a → p a = false) : y.takeWhile p = [] := by
  cases y with
  | nil => rfl
  | cons a t => rw [List.takeWhile_cons, if_neg (by simp [h a rfl])]

theorem getLast?_append_right (u v : List Nat) (hv : v ≠ []) :
    (u ++ v).getLast? = v.getLast? := by
  rw [List.getLast?_append]
  cases hg : v.getLast? with
  | none => exact absurd (List.getLast?_eq_none_iff.mp hg) hv
  | some a => rfl

theorem getLast?_cons_all (c : Nat) :
    ∀ run : List Nat, (∀ a ∈ run, a = c) → (c :: run).getLast? = some c := by
  intro run
  induction run with
  | nil => intro _; rfl
  | cons b t ih =>
    intro h
    have hb : b = c := h b (List.mem_cons_self b t)
    subst hb
    rw [List.getLast?_cons_cons]
    exact ih fun a ha => h a (List.mem_cons_of_mem b ha)

theorem head?_replicate_append (c n : Nat) (b : List Nat) (hn : 1 ≤ n) :
    (List.replicate n c ++ b).head? = some c := by
  obtain ⟨n', rfl⟩ : ∃ n', n = n' + 1 := ⟨n - 1, by omega⟩
  rw [List.replicate_succ, List.cons_append]
  rfl

theorem getLast?_replicate (c n : Nat) (hn : 1 ≤ n) :
    (List.replicate n c).getLast? = some c := by
  obtain ⟨n', rfl⟩ : ∃ n', n = n' + 1 := ⟨n - 1, by omega⟩
  rw [List.replicate_succ']
  exact List.getLast?_concat _

theorem runCollapseF_fuel (k : Nat) :
    ∀ (f : Nat) (l : List Nat) (g : Nat), l.length ≤ f → l.length ≤ g →
      runCollapseF k f l = runCollapseF k g l := by
  intro f
  induction f with
  | zero =>
    intro l g hf _
    have hl : l = [] := List.eq_nil_of_length_eq_zero (Nat.le_zero.mp hf)
    subst hl
    rw [runCollapseF_nil, runCollapseF_nil]
  | succ f ih =>
    intro l g hf hg
    cases l with
    | nil => rw [runCollapseF_nil, runCollapseF_nil]
    | cons c rest =>
      cases g with
      | zero => simp at hg
      | succ g' =>
        have hf' : rest.length ≤ f := by simpa using hf
        have hg' : rest.length ≤ g' := by simpa using hg
        have h1 : (rest.dropWhile (· == c)).length ≤ f :=
          le_trans (dropWhile_length_le _ _) hf'
        have h2 : (rest.dropWhile (· == c)).length ≤ g' :=
          le_trans (dropWhile_length_le _ _) hg'
        by_cases hc : isDot c = true ∧ k ≤ (rest.takeWhile (· == c)).length
        · simp only [runCollapseF, if_pos hc]
          rw [ih _ g' h1 h2]
        · simp only [runCollapseF, if_neg hc]
          rw [ih _ g' h1 h2]

/-- The run-collapsing pass splits at a boundary where the last unit on the
left differs from the first unit on the right: no run crosses it, so the
pass acts independently on the two sides. -/
theorem runCollapseF_append (k : Nat) :
    ∀ (f : Nat) (x y : List Nat), x.length ≤ f →
      (∀ cx cy, x.getLast? = some cx → y.head? = some cy → cx ≠ cy) →
      runCollapseF k (f + y.length) (x ++ y) = runCollapseF k f x ++ runCollapseF k y.length y := by
  intro f
  induction f with
  | zero =>
    intro x y hx _
    have hxe : x = [] := List.eq_nil_of_length_eq_zero (Nat.le_zero.mp hx)
    subst hxe
    rw [List.nil_append, runCollapseF_nil, List.nil_append, Nat.zero_add]
  | succ f ih =>
    intro x y hx hb
    cases x with
    | nil =>
      rw [List.nil_append, runCollapseF_nil, List.nil_append]
      exact runCollapseF_fuel k (f + 1 + y.length) y y.length (by omega) (Nat.le_refl _)
    | cons c rest =>
      have hsplit := List.takeWhile_append_dropWhile (p := (· == c)) (l := rest)
      have htwall : ∀ a ∈ rest.takeWhile (· == c), (a == c) = true := by
        intro a ha
        exact List.mem_takeWhile_imp (p := (· == c)) ha
      -- the first maximal run of x ++ y never reaches into y
      have hkey : (rest ++ y).takeWhile (· == c) = rest.takeWhile (· == c) ∧
          (rest ++ y).dropWhile (· == c) = rest.dropWhile (· == c) ++ y := by
        by_cases hre : rest.dropWhile (· == c) = []
        · -- rest is entirely the run, and y starts with a different unit
          have hrest_eq := hsplit
          rw [hre, List.append_nil] at hrest_eq
          have hall : ∀ a ∈ rest, a = c := by
            intro a ha
            rw [← hrest_eq] at ha
            exact eq_of_beq (List.mem_takeWhile_imp (p := (· == c)) ha)
          have hgl : (c :: rest).getLast? = some c := getLast?_cons_all c rest hall
          have hyh : ∀ a, y.head? = some a → (a == c) = false := by
            intro a ha
            have hne : c ≠ a := hb c a hgl ha
            exact beq_eq_false_iff_ne.mpr fun he => hne he.symm
          have hallp : ∀ a ∈ rest, (a == c) = true := by
            intro a ha
            rw [hall a ha]
            exact beq_self_eq_true c
          constructor
          · rw [takeWhile_append_all _ rest y hallp, takeWhile_nil_of_head _ y hyh,
              List.append_nil, hrest_eq]
          · rw [dropWhile_append_all _ rest y hallp, dropWhile_eq_self_of_head _ y
              (fun a ha => hyh a ha), hre, List.nil_append]
        · -- the run already stops inside rest
          obtain ⟨d, t, hdt⟩ : ∃ d t, rest.dropWhile (· == c) = d :: t := by
            cases hdr : rest.dropWhile (· == c) with
            | nil => exact absurd hdr hre
            | cons d t => exact ⟨d, t, rfl⟩
          have hd : (d == c) = false := head?_dropWhile (· == c) rest d (by rw [hdt]; rfl)
          constructor
          · calc (rest ++ y).takeWhile (· == c)
                = ((rest.takeWhile (· == c) ++ rest.dropWhile (· == c)) ++ y).takeWhile
                    (· == c) := by rw [hsplit]
              _ = (rest.takeWhile (· == c) ++ (rest.dropWhile (· == c) ++ y)).takeWhile
                    (· == c) := by rw [List.append_assoc]
              _ = rest.takeWhile (· == c) ++ (rest.dropWhile (· == c) ++ y).takeWhile
                    (· == c) := takeWhile_append_all _ _ _ htwall
              _ = rest.takeWhile (· == c) ++ [] := by
                    rw [hdt, List.cons_append, List.takeWhile_cons, if_neg (by simp [hd])]
              _ = rest.takeWhile (· == c) := List.append_nil _
          · calc (rest ++ y).dropWhile (· == c)
                = ((rest.takeWhile (· == c) ++ rest.dropWhile (· == c)) ++ y).dropWhile
                    (· == c) := by rw [hsplit]
              _ = (rest.takeWhile (· == c) ++ (rest.dropWhile (· == c) ++ y)).dropWhile
                    (· == c) := by rw [List.append_assoc]
              _ = (rest.dropWhile (· == c) ++ y).dropWhile (· == c) :=
                    dropWhile_append_all _ _ _ htwall
              _ = rest.dropWhile (· == c) ++ y := by
                    rw [hdt, List.cons_append, List.dropWhile_cons, if_neg (by simp [hd]),
                      ← List.cons_append]
      obtain ⟨htw, hdw⟩ := hkey
      have hxl : rest.length ≤ f := by simpa using hx
      have hrl : (rest.dropWhile (· == c)).length ≤ f :=
        le_trans (dropWhile_length_le _ _) hxl
      have hbdry' : ∀ cx cy, (rest.dropWhile (· == c)).getLast? = some cx →
          y.head? = some cy → cx ≠ cy := by
        intro cx cy hcx hcy
        apply hb cx cy ?_ hcy
        have hne : rest.dropWhile (· == c) ≠ [] := by
          intro he
          rw [he] at hcx
          simp at hcx
        have hxeq : (c :: rest).getLast? = (rest.dropWhile (· == c)).getLast? := by
          conv_lhs => rw [show c :: rest =
            (c :: rest.takeWhile (· == c)) ++ rest.dropWhile (· == c) from by
              rw [List.cons_append, hsplit]]
          exact getLast?_append_right _ _ hne
        rw [hxeq]
        exact hcx
      rw [show f + 1 + y.length = (f + y.length) + 1 from by omega, List.cons_append]
      by_cases hcond : isDot c = true ∧ k ≤ (rest.takeWhile (· == c)).length
      · have hcond2 : isDot c = true ∧ k ≤ ((rest ++ y).takeWhile (· == c)).length := by
          rw [htw]; exact hcond
        simp only [runCollapseF, if_pos hcond2, if_pos hcond]
        rw [hdw]
        exact congrArg (c :: ·) (ih (rest.dropWhile (· == c)) y hrl hbdry')
      · have hcond2 : ¬(isDot c = true ∧ k ≤ ((rest ++ y).takeWhile (· == c)).length) := by
          rw [htw]; exact hcond
        simp only [runCollapseF, if_neg hcond2, if_neg hcond]
        rw [htw, hdw, List.append_assoc]
        exact congrArg (fun z => (c :: rest.takeWhile (· == c)) ++ z)
          (ih (rest.dropWhile (· == c)) y hrl hbdry')

theorem runCollapse_append (k : Nat) (x y : List Nat)
    (hb : ∀ cx cy, x.getLast? = some cx → y.head? = some cy → cx ≠ cy) :
    runCollapse k (x ++ y) = runCollapse k x ++ runCollapse k y := by
  unfold runCollapse
  rw [List.length_append]
  exact runCollapseF_append k x.length x y (Nat.le_refl _) hb

/-- A homogeneous run below the threshold, or of a unit `.` cannot match, is
kept verbatim by the run-collapsing pass. -/
theorem runCollapse_replicate_keep (k c n : Nat) (h : ¬(isDot c = true ∧ k + 1 ≤ n)) :
    runCollapse k (List.replicate n c) = List.replicate n c := by
  cases n with
  | zero => rfl
  | succ n' =>
    unfold runCollapse
    rw [List.length_replicate, List.replicate_succ]
    have hcond : ¬(isDot c = true ∧ k ≤ ((List.replicate n' c).takeWhile (· == c)).length) := by
      rw [takeWhile_beq_replicate, List.length_replicate]
      intro hand
      exact h ⟨hand.1, by omega⟩
    simp only [runCollapseF, if_neg hcond]
    rw [takeWhile_beq_replicate, dropWhile_beq_replicate, runCollapseF_nil, List.append_nil,
      ← List.replicate_succ]

/-- The run-collapsing pass on an arbitrary maximal embedded run: a run of
`n` consecutive occurrences of any unit `c` (its neighbours differing from
`c`) is collapsed to a single occurrence exactly when `.` matches `c` and
the run is long enough, and kept verbatim otherwise; the surroundings are
processed independently. -/
theorem runCollapse_maximal_run (k : Nat) (a b : List Nat) (c n : Nat) (hn : 1 ≤ n)
    (ha : ∀ ca, a.getLast? = some ca → ca ≠ c)
    (hb : ∀ cb, b.head? = some cb → cb ≠ c) :
    runCollapse k (a ++ (List.replicate n c ++ b)) =
      runCollapse k a ++
        ((if isDot c = true ∧ k + 1 ≤ n then [c] else List.replicate n c) ++
          runCollapse k b) := by
  have h1 : runCollapse k (a ++ (List.replicate n c ++ b)) =
      runCollapse k a ++ runCollapse k (List.replicate n c ++ b) := by
    apply runCollapse_append
    intro cx cy hcx hcy
    rw [head?_replicate_append c n b hn] at hcy
    have hcyc : c = cy := Option.some.inj hcy
    rw [← hcyc]
    exact ha cx hcx
  have h2 : runCollapse k (List.replicate n c ++ b) =
      runCollapse k (List.replicate n c) ++ runCollapse k b := by
    apply runCollapse_append
    intro cx cy hcx hcy
    rw [getLast?_replicate c n hn] at hcx
    have hcxc : c = cx := Option.some.inj hcx
    rw [← hcxc]
    exact fun he => hb cy hcy he.symm
  rw [h1, h2]
  congr 1
  congr 1
  by_cases hcol : isDot c = true ∧ k + 1 ≤ n
  · rw [if_pos hcol]
    exact runCollapse_replicate k c n hcol.1 hcol.2
  · rw [if_neg hcol]
    exact runCollapse_replicate_keep k c n hcol

theorem utf16_bmp : ∀ l : List Nat, (∀ c ∈ l, c < 65536) → utf16 l = l := by
  intro l
  induction l with
  | nil => intro _; rfl
  | cons c rest ih =>
    intro h
    show encodeU16 c ++ utf16 rest = c :: rest
    rw [show encodeU16 c = [c] from if_pos (h c (List.mem_cons_self c rest)),
      ih fun x hx => h x (List.mem_cons_of_mem c hx)]
    rfl

/-! ## Timeline lemmas -/

theorem lastEnd_append : ∀ (l : List Segment) (t : Nat) (s : Segment),
    lastEnd t (l ++ [s]) = s.endTime := by
  intro l
  induction l with
  | nil => intro t s; rfl
  | cons a rest ih => intro t s; exact ih a.endTime s

theorem chainedFrom_append : ∀ (l : List Segment) (t : Nat) (s : Segment),
    chainedFrom t l → s.startTime = lastEnd t l → chainedFrom t (l ++ [s]) := by
  intro l
  induction l with
  | nil => intro t s _ hs; exact ⟨hs, trivial⟩
  | cons a rest ih => intro t s h hs; exact ⟨h.1, ih a.endTime s h.2 hs⟩

theorem finalize_cases (st : AppState) :
    finalizeCurrentSegment st = st ∨
    ∃ seg : Segment, seg.startTime = st.lastSegmentTime ∧ seg.endTime = st.elapsedTime ∧
      finalizeCurrentSegment st =
        { st with
          segments := st.segments ++ [seg],
          buffer := [],
          lastSegmentTime := st.elapsedTime,
          queue := st.queue ++ [⟨seg.id, .polish, 0⟩] ++
            (if st.isBilingual then [⟨seg.id, .translate, 0⟩] else []),
          nextId := st.nextId + 1 } := by
  by_cases hg : (cleanText st.buffer).isEmpty = true ∨ (cleanText st.buffer).length < 2
  · left
    simp only [finalizeCurrentSegment]
    rw [if_pos hg]
  · right
    refine ⟨⟨st.nextId, st.lastSegmentTime, st.elapsedTime, cleanText st.buffer, none, true⟩,
      rfl, rfl, ?_⟩
    simp only [finalizeCurrentSegment]
    rw [if_neg hg]

theorem finalizeV2_cases (st : AppState) :
    finalizeCurrentSegmentV2 st = st ∨
    ∃ seg : Segment, seg.startTime = st.lastSegmentTime ∧
      seg.endTime = max st.elapsedTime (st.lastSegmentTime + 1) ∧
      finalizeCurrentSegmentV2 st =
        { st with
          segments := st.segments ++ [seg],
          buffer := [],
          lastSegmentTime := seg.endTime,
          queue := st.queue ++ [⟨seg.id, .polish, 0⟩] ++
            (if st.isBilingual then [⟨seg.id, .translate, 0⟩] else []),
          nextId := st.nextId + 1 } := by
  by_cases hg : (cleanHallucinations (trimList st.buffer)).isEmpty = true ∨
      (cleanHallucinations (trimList st.buffer)).length < 1
  · left
    simp only [finalizeCurrentSegmentV2]
    rw [if_pos hg]
  · right
    refine ⟨⟨st.nextId, st.lastSegmentTime, max st.elapsedTime (st.lastSegmentTime + 1),
      cleanHallucinations (trimList st.buffer), none, true⟩, rfl, rfl, ?_⟩
    simp only [finalizeCurrentSegmentV2]
    rw [if_neg hg]

theorem invA_applyEvent (st : AppState) (e : SegEvent) (h : InvA st) :
    InvA (applyEvent st e) := by
  obtain ⟨h1, h2, h3, h4⟩ := h
  cases e with
  | delta t => exact ⟨h1, h2, h3, h4⟩
  | tick => exact ⟨h1, Nat.le_succ_of_le h2, h3, h4⟩
  | finalize =>
    show InvA (finalizeCurrentSegment st)
    rcases finalize_cases st with heq | ⟨seg, hst, hend, heq⟩
    · rw [heq]; exact ⟨h1, h2, h3, h4⟩
    · rw [heq]
      refine ⟨?_, ?_, ?_, ?_⟩
      · show st.elapsedTime = lastEnd 0 (st.segments ++ [seg])
        rw [lastEnd_append]
        exact hend.symm
      · exact Nat.le_refl _
      · show chainedFrom 0 (st.segments ++ [seg])
        exact chainedFrom_append st.segments 0 seg h3 (by rw [hst, h1])
      · show ∀ s ∈ st.segments ++ [seg], s.startTime ≤ s.endTime
        intro s hs
        rcases List.mem_append.mp hs with hmem | hmem
        · exact h4 s hmem
        · rcases List.mem_singleton.mp hmem with rfl
          rw [hst, hend]
          exact h2

theorem invA_runEvents : ∀ (evs : List SegEvent) (st : AppState),
    InvA st → InvA (runEvents st evs) := by
  intro evs
  induction evs with
  | nil => intro st h; exact h
  | cons e rest ih =>
    intro st h
    exact ih (applyEvent st e) (invA_applyEvent st e h)

theorem invB_applyEventV2 (st : AppState) (e : SegEvent) (h : InvB st) :
    InvB (applyEventV2 st e) := by
  obtain ⟨h1, h2, h3⟩ := h
  cases e with
  | delta t => exact ⟨h1, h2, h3⟩
  | tick => exact ⟨h1, h2, h3⟩
  | finalize =>
    show InvB (finalizeCurrentSegmentV2 st)
    rcases finalizeV2_cases st with heq | ⟨seg, hst, hend, heq⟩
    · rw [heq]; exact ⟨h1, h2, h3⟩
    · rw [heq]
      refine ⟨?_, ?_, ?_⟩
      · show seg.endTime = lastEnd 0 (st.segments ++ [seg])
        rw [lastEnd_append]
      · show chainedFrom 0 (st.segments ++ [seg])
        exact chainedFrom_append st.segments 0 seg h2 (by rw [hst, h1])
      · show ∀ s ∈ st.segments ++ [seg], s.startTime < s.endTime
        intro s hs
        rcases List.mem_append.mp hs with hmem | hmem
        · exact h3 s hmem
        · rcases List.mem_singleton.mp hmem with rfl
          rw [hst, hend]
          exact Nat.lt_of_lt_of_le (Nat.lt_succ_self _) (Nat.le_max_right _ _)

theorem invB_runEventsV2 : ∀ (evs : List SegEvent) (st : AppState),
    InvB st → InvB (runEventsV2 st evs) := by
  intro evs
  induction evs with
  | nil => intro st h; exact h
  | cons e rest ih =>
    intro st h
    exact ih (applyEventV2 st e) (invB_applyEventV2 st e h)

/-! ## Queue machine lemmas -/

theorem extractCalling_length : ∀ (l : List WCont) (it : QItem) (others : List WCont),
    extractCalling l = some (it, others) → others.length + 1 = l.length := by
  intro l
  induction l with
  | nil => intro it others h; simp [extractCalling] at h
  | cons c rest ih =>
    intro it others h
    cases c with
    | calling item =>
      simp only [extractCalling, Option.some.injEq, Prod.mk.injEq] at h
      rw [← h.2]
      rfl
    | cooling item =>
      cases hr : extractCalling rest with
      | none => simp [extractCalling, hr] at h
      | some v =>
        obtain ⟨it', os⟩ := v
        simp only [extractCalling, hr, Option.some.injEq, Prod.mk.injEq] at h
        rw [← h.2]
        simpa using ih it' os hr

theorem extractCooling_length : ∀ (l : List WCont) (it : QItem) (others : List WCont),
    extractCooling l = some (it, others) → others.length + 1 = l.length := by
  intro l
  induction l with
  | nil => intro it others h; simp [extractCooling] at h
  | cons c rest ih =>
    intro it others h
    cases c with
    | cooling item =>
      simp only [extractCooling, Option.some.injEq, Prod.mk.injEq] at h
      rw [← h.2]
      rfl
    | calling item =>
      cases hr : extractCooling rest with
      | none => simp [extractCooling, hr] at h
      | some v =>
        obtain ⟨it', os⟩ := v
        simp only [extractCooling, hr, Option.some.injEq, Prod.mk.injEq] at h
        rw [← h.2]
        simpa using ih it' os hr

theorem qinv_step (s : QState) (e : QEvent) (h : QInv s) : QInv (queueStep s e) := by
  obtain ⟨hlen, hempty⟩ := h
  cases e with
  | invoke =>
    show QInv (if s.busy then s else _)
    by_cases hb : s.busy = true
    · rw [if_pos hb]
      exact ⟨hlen, hempty⟩
    · rw [if_neg hb]
      have hb' : s.busy = false := by
        cases hsb : s.busy
        · rfl
        · exact absurd hsb hb
      have hc : s.conts = [] := hempty hb'
      cases hp : popResolvable s.segs s.queue with
      | none => exact ⟨by simpa using hlen, fun _ => hc⟩
      | some v =>
        obtain ⟨item, rest⟩ := v
        refine ⟨by simp [hc], fun hfalse => by simp at hfalse⟩
  | resolve ok out =>
    cases hec : extractCalling s.conts with
    | none =>
      show QInv (queueStep s (.resolve ok out))
      simp only [queueStep, hec]
      exact ⟨hlen, hempty⟩
    | some v =>
      obtain ⟨item, others⟩ := v
      have hol : others.length + 1 = s.conts.length := extractCalling_length s.conts item others hec
      have hoe : others = [] := by
        have : others.length = 0 := by omega
        exact List.eq_nil_of_length_eq_zero this
      have hbusy : s.busy = true := by
        cases hsb : s.busy
        · rw [hempty hsb] at hec
          simp [extractCalling] at hec
        · rfl
      show QInv (queueStep s (.resolve ok out))
      simp only [queueStep, hec]
      by_cases hok : ok = true
      · rw [if_pos hok]
        exact ⟨by simp [hoe], fun hfalse => by rw [hbusy] at hfalse; cases hfalse⟩
      · rw [if_neg hok]
        by_cases hrc : item.retryCount < 5
        · rw [if_pos hrc]
          exact ⟨by simp [hoe], fun _ => hoe⟩
        · rw [if_neg hrc]
          exact ⟨by simp [hoe], fun _ => hoe⟩
  | cooldownDone =>
    cases hec : extractCooling s.conts with
    | none =>
      show QInv (queueStep s .cooldownDone)
      simp only [queueStep, hec]
      exact ⟨hlen, hempty⟩
    | some v =>
      obtain ⟨item, others⟩ := v
      have hol : others.length + 1 = s.conts.length := extractCooling_length s.conts item others hec
      have hoe : others = [] := by
        have : others.length = 0 := by omega
        exact List.eq_nil_of_length_eq_zero this
      show QInv (queueStep s .cooldownDone)
      simp only [queueStep, hec]
      exact ⟨by simp [hoe], fun _ => hoe⟩
  | fireTimer i =>
    show QInv (queueStep s (.fireTimer i))
    simp only [queueStep]
    cases hg : s.retryTimers[i]? with
    | none => exact ⟨hlen, hempty⟩
    | some v => exact ⟨hlen, hempty⟩
  | enqueue item => exact ⟨hlen, hempty⟩

theorem reachableQ_inv (segs : List Segment) (b : Bool) :
    ∀ s : QState, ReachableQ segs b s → QInv s := by
  intro s h
  induction h with
  | init => exact ⟨by simp [initQ], fun _ => rfl⟩
  | step e _ ih => exact qinv_step _ e ih

theorem finalize_queue_mono (st : AppState) (j : QItem) (hj : j ∈ st.queue) :
    j ∈ (finalizeCurrentSegment st).queue := by
  rcases finalize_cases st with heq | ⟨seg, _, _, heq⟩
  · rw [heq]; exact hj
  · rw [heq]
    show j ∈ st.queue ++ [⟨seg.id, .polish, 0⟩] ++ _
    exact List.mem_append_left _ (List.mem_append_left _ hj)

/-! ## Claim theorems -/

/-- C1: in the enrichment queue worker, at most one external refinement call
(polish or translate) is outstanding at any time, for every interleaving of
enqueue operations and timer callbacks — the busy flag is set in the same
atomic block that dispatches, checked before every drain attempt, and
cleared only after the call resolves. -/
theorem queue_single_flight (segs : List Segment) (b : Bool) (s : QState)
    (h : ReachableQ segs b s) : callsOutstanding s ≤ 1 :=
  le_trans (List.length_filter_le _ _) (reachableQ_inv segs b s h).1

theorem queue_single_flight_witness :
    callsOutstanding
      (queueStep (queueStep (initQ [⟨0, 0, 1, [104], none, true⟩] false)
        (QEvent.enqueue ⟨0, JobType.polish, 0⟩)) QEvent.invoke) ≤ 1 :=
  queue_single_flight [⟨0, 0, 1, [104], none, true⟩] false _
    (ReachableQ.step QEvent.invoke
      (ReachableQ.step (QEvent.enqueue ⟨0, JobType.polish, 0⟩) ReachableQ.init))

/-- C2: a failed job with retryCount < 5 is re-enqueued (via a backoff timer
of 2^retryCount · 2000 ms) as the same logical job with retryCount + 1; a
successful job is never re-enqueued; a failure at retryCount = 5 drops the
job with no timer, and no failure ever mutates the segment list, so the
target segment's text is unchanged from its pre-enrichment value. -/
theorem queue_retry_policy (s : QState) (item : QItem) (out : Option (List Nat))
    (hc : s.conts = [WCont.calling item]) :
    (item.retryCount < 5 →
      (queueStep s (.resolve false out)).retryTimers =
        s.retryTimers ++ [(2 ^ item.retryCount * 2000, ⟨item.id, item.type, item.retryCount + 1⟩)]) ∧
    (queueStep s (.resolve false out)).segs = s.segs ∧
    (queueStep s (.resolve false out)).queue = s.queue ∧
    (queueStep s (.resolve true out)).retryTimers = s.retryTimers ∧
    (queueStep s (.resolve true out)).queue = s.queue ∧
    (5 ≤ item.retryCount →
      (queueStep s (.resolve false out)).retryTimers = s.retryTimers ∧
      (queueStep s (.resolve false out)).conts = [] ∧
      (queueStep s (.resolve false out)).queue = s.queue) ∧
    (∀ (s' : QState) (i : Nat) (d : Nat) (j : QItem), s'.retryTimers[i]? = some (d, j) →
      (queueStep s' (.fireTimer i)).queue = s'.queue ++ [j]) := by
  have hec : extractCalling s.conts = some (item, []) := by rw [hc]; rfl
  refine ⟨?_, ?_, ?_, ?_, ?_, ?_, ?_⟩
  · intro hrc
    simp [queueStep, hec, hrc]
  · by_cases hrc : item.retryCount < 5 <;> simp [queueStep, hec, hrc]
  · by_cases hrc : item.retryCount < 5 <;> simp [queueStep, hec, hrc]
  · simp [queueStep, hec]
  · simp [queueStep, hec]
  · intro hrc
    have hrc' : ¬ item.retryCount < 5 := by omega
    refine ⟨?_, ?_, ?_⟩ <;> simp [queueStep, hec, hrc']
  · intro s' i d j hg
    simp [queueStep, hg]

theorem queue_retry_policy_witness :
    (queueStep sQW (QEvent.resolve false none)).retryTimers =
      [] ++ [(2 ^ 0 * 2000, ⟨0, JobType.polish, 1⟩)] :=
  (queue_retry_policy sQW ⟨0, JobType.polish, 0⟩ none rfl).1 (by decide)

/-- C4 counterexample: at retryCount 0 while recording, the code schedules
the reconnect after 2000 ms (it increments the counter before computing the
backoff), not after min(15000, 2^0·1000) = 1000 ms as claimed. -/
theorem conn_backoff_cx :
    liveOnError ⟨0, .recording, none⟩ = ⟨1, .recording, some 2000⟩ ∧
    (2000 : Nat) ≠ min 15000 (2 ^ (0 : Nat) * 1000) := by decide

/-- C4 amended: on a transport error with retryCount < 5 and status ≠ Idle,
a reconnect is scheduled after min(15000, 2^(retryCount+1) · 1000) ms and the
counter becomes retryCount + 1; every successful open resets the counter to
0; an error arriving with the counter at 5 or more sets status to Error. -/
theorem conn_retry_amended :
    (∀ s : ConnState, s.retryCount < 5 → s.status ≠ .idle →
      liveOnError s =
        { s with
          retryCount := s.retryCount + 1,
          scheduledReconnectMs := some (min 15000 (2 ^ (s.retryCount + 1) * 1000)) }) ∧
    (∀ s : ConnState, (liveOnOpen s).retryCount = 0) ∧
    (∀ s : ConnState, 5 ≤ s.retryCount → (liveOnError s).status = .error) := by
  refine ⟨?_, ?_, ?_⟩
  · intro s h1 h2
    simp only [liveOnError]
    rw [if_pos ⟨h1, h2⟩]
  · intro s; rfl
  · intro s h5
    simp only [liveOnError]
    rw [if_neg (fun hand => absurd hand.1 (by omega))]
    rw [if_pos h5]

/-- C7 counterexample: a buffer that cleans to "a" (below the 2-unit floor)
is not reset to empty by finalize — the early return leaves it as "a". -/
theorem discard_short_keeps_buffer_cx :
    cleanText stShort.buffer = [97] ∧ (cleanText stShort.buffer).length < 2 ∧
    (finalizeCurrentSegment stShort).buffer = [97] ∧ [97] ≠ ([] : List Nat) := by decide

/-- C7 amended: when the cleaned buffer is empty or shorter than 2 units,
finalize is a complete no-op — no segment, no jobs, lastBoundary not
advanced, and the buffer left unchanged (not reset to empty). -/
theorem finalize_discard_short (st : AppState)
    (h : cleanText st.buffer = [] ∨ (cleanText st.buffer).length < 2) :
    finalizeCurrentSegment st = st := by
  have hg : (cleanText st.buffer).isEmpty = true ∨ (cleanText st.buffer).length < 2 := by
    rcases h with h | h
    · left; rw [h]; rfl
    · right; exact h
  simp only [finalizeCurrentSegment]
  rw [if_pos hg]

theorem finalize_discard_short_witness : finalizeCurrentSegment stShort = stShort :=
  finalize_discard_short stShort (by decide)

/-- C10: a successful polish never overwrites a non-empty segment text with
the empty string — empty or whitespace-only responses fall back to the
previous text (`response.text?.trim() || segment.text`) — while translate
has no such guard and may set the empty string. -/
theorem polish_empty_guard :
    (∀ (out : Option (List Nat)) (old : List Nat), old ≠ [] → polishedText out old ≠ []) ∧
    (∀ (out : Option (List Nat)) (old : List Nat), respTrim out = [] → polishedText out old = old) ∧
    (∀ (segs : List Segment) (i : Nat) (out : Option (List Nat)), respTrim out = [] →
      applyPolish segs i out = segs) ∧
    translatedOf (some [32, 32]) = [] := by
  have hp : ∀ (out : Option (List Nat)) (old : List Nat), respTrim out = [] →
      polishedText out old = old := by
    intro out old h
    simp [polishedText, h]
  refine ⟨?_, hp, ?_, by decide⟩
  · intro out old hne
    by_cases ht : (respTrim out).isEmpty = true
    · have : polishedText out old = old := by simp [polishedText, ht]
      rw [this]; exact hne
    · have : polishedText out old = respTrim out := by simp [polishedText, ht]
      rw [this]
      intro he
      rw [he] at ht
      exact ht rfl
  · intro segs i out h
    unfold applyPolish
    have hpe : ∀ s : Segment,
        (if s.id == i then { s with text := polishedText out s.text } else s) = id s := by
      intro s
      rw [hp out s.text h]
      exact ite_self s
    rw [List.map_congr_left fun s _ => hpe s, List.map_id]

/-- C3 counterexample: in types.ts `endTime` is not clamped — a delta
followed by a finalize within the first second produces the zero-length
segment (startTime, endTime) = (0, 0), violating endTime > startTime. -/
theorem timeline_zero_length_cx :
    ((runEvents (initApp false []) [SegEvent.delta [104, 105], SegEvent.finalize]).segments.map
      fun s => (s.startTime, s.endTime)) = [(0, 0)] ∧ ¬ ((0 : Nat) < 0) := by decide

/-- C3 amended: for every sequence of events, consecutive segments chain
(s[i+1].startTime = s[i].endTime).  In the types.ts variant `endTime` is not
clamped and only endTime ≥ startTime holds; in the part_002 variant, whose
`endTime` is clamped to startTime + 1, endTime > startTime holds. -/
theorem timeline_invariant_amended :
    (∀ (b : Bool) (ss : List Session) (evs : List SegEvent),
      chainedFrom 0 (runEvents (initApp b ss) evs).segments ∧
      ∀ s ∈ (runEvents (initApp b ss) evs).segments, s.startTime ≤ s.endTime) ∧
    (∀ (b : Bool) (ss : List Session) (evs : List SegEvent),
      chainedFrom 0 (runEventsV2 (initApp b ss) evs).segments ∧
      ∀ s ∈ (runEventsV2 (initApp b ss) evs).segments, s.startTime < s.endTime) := by
  constructor
  · intro b ss evs
    have h0 : InvA (initApp b ss) :=
      ⟨rfl, Nat.le_refl 0, trivial, fun s hs => absurd hs (List.not_mem_nil s)⟩
    have h := invA_runEvents evs (initApp b ss) h0
    exact ⟨h.2.2.1, h.2.2.2⟩
  · intro b ss evs
    have h0 : InvB (initApp b ss) :=
      ⟨rfl, trivial, fun s hs => absurd hs (List.not_mem_nil s)⟩
    have h := invB_runEventsV2 evs (initApp b ss) h0
    exact ⟨h.2.1, h.2.2⟩

/-- C5 counterexample: cleanText is not idempotent.  On
"abcdabcdabcdefghabcdefghabcdefgh" the single pass collapses the leading
"abcd" triple, leaving "abcdefgh" repeated three times, which a second
application collapses further. -/
theorem clean_not_idempotent_cx :
    cleanText sC5 =
      [97, 98, 99, 100, 101, 102, 103, 104, 97, 98, 99, 100, 101, 102, 103, 104,
       97, 98, 99, 100, 101, 102, 103, 104] ∧
    cleanText (cleanText sC5) = [97, 98, 99, 100, 101, 102, 103, 104] ∧
    cleanText (cleanText sC5) ≠ cleanText sC5 := by decide

/-- C5 amended: cleanText is idempotent on inputs shorter than 7 code units
(where neither replacement can match and cleaning reduces to trimming) and
on the spec's reference inputs, but not in general; on the counterexample
input a third application agrees with the second. -/
theorem clean_idem_amended :
    (∀ l : List Nat, l.length < 7 → cleanText (cleanText l) = cleanText l) ∧
    cleanText (cleanText (List.replicate 7 97)) = cleanText (List.replicate 7 97) ∧
    cleanText (cleanText hello3) = cleanText hello3 ∧
    cleanText (cleanText [111, 107]) = cleanText [111, 107] ∧
    cleanText (cleanText (cleanText sC5)) = cleanText (cleanText sC5) :=
  ⟨cleanText_idem_short, by decide, by decide, by decide, by decide⟩

/-- C6 counterexample: a run of exactly 6 repeated units is not collapsed by
cleanText — `/(.)\1{6,}/` needs the unit plus six repeats, i.e. seven. -/
theorem repeat_collapse_six_cx :
    cleanText (List.replicate 6 97) = List.replicate 6 97 ∧
    List.replicate 6 97 ≠ [97] := by decide

/-- C6 amended: the run-collapsing pass of cleanText (its first
replacement, `runCollapse 6`, embedding `/(.)\1{6,}/g`) rewrites any
maximal run of `n` consecutive occurrences of a character, wherever it
occurs in the string, to exactly one occurrence when `.` matches the
character and n ≥ 7 (the character plus at least 6 repeats), and keeps the
run verbatim otherwise — in particular a run of exactly 6 is kept, and a
run of line terminators is never collapsed; the part_002 variant
(`runCollapse 5` inside cleanHallucinations) collapses at n ≥ 6.  The later
phrase-collapse and trim stages then process that result (so e.g. trim can
still delete a whitespace run at either end of the string).  The three
reference examples hold for cleanText end to end. -/
theorem repeat_collapse_amended :
    (∀ l : List Nat,
      cleanText l = if l.isEmpty then [] else trimList (phraseCollapse 4 (runCollapse 6 l))) ∧
    (∀ (a b : List Nat) (c n : Nat), 1 ≤ n →
      (∀ ca, a.getLast? = some ca → ca ≠ c) →
      (∀ cb, b.head? = some cb → cb ≠ c) →
      runCollapse 6 (a ++ (List.replicate n c ++ b)) =
        runCollapse 6 a ++
          ((if isDot c = true ∧ 7 ≤ n then [c] else List.replicate n c) ++ runCollapse 6 b)) ∧
    (∀ (a b : List Nat) (c n : Nat), 1 ≤ n →
      (∀ ca, a.getLast? = some ca → ca ≠ c) →
      (∀ cb, b.head? = some cb → cb ≠ c) →
      runCollapse 5 (a ++ (List.replicate n c ++ b)) =
        runCollapse 5 a ++
          ((if isDot c = true ∧ 6 ≤ n then [c] else List.replicate n c) ++ runCollapse 5 b)) ∧
    cleanText (List.replicate 7 97) = [97] ∧
    cleanText hello3 = [104, 101, 108, 108, 111] ∧
    cleanText [111, 107] = [111, 107] := by
  refine ⟨fun l => rfl, ?_, ?_, by decide, by decide, by decide⟩
  · intro a b c n hn ha hb
    exact runCollapse_maximal_run 6 a b c n hn ha hb
  · intro a b c n hn ha hb
    exact runCollapse_maximal_run 5 a b c n hn ha hb

/-- C8 counterexample: the part_002 `stopRecording` ends with
`processingQueueRef.current = []`, so a job queued at stop time is gone
afterwards. -/
theorem stop_clears_queue_cx :
    (⟨4, JobType.polish, 1⟩ : QItem) ∈ stStop.queue ∧
    (stopRecordingV2 stStop).queue = [] := by decide

/-- C8 amended: in types.ts, stopping does not cancel or clear queued jobs —
every queued job survives `stopRecording` — and afterwards the worker's
segment resolution reads the newly archived session's list, which is exactly
the final (post-flush) live segment list.  The part_002 variant instead
clears the queue on stop. -/
theorem stop_preserves_queue (st : AppState) (j : QItem) (hj : j ∈ st.queue) :
    j ∈ (stopRecording st).queue ∧
    (st.status ≠ .idle →
      activeSegments (stopRecording st) = some (finalizeCurrentSegment st).segments) := by
  constructor
  · simp only [stopRecording]
    by_cases hs : st.status = .idle
    · rw [if_pos hs]
      exact hj
    · rw [if_neg hs]
      show j ∈ (finalizeCurrentSegment st).queue
      exact finalize_queue_mono st j hj
  · intro hs
    simp only [stopRecording]
    rw [if_neg hs]
    show activeSegments _ = _
    simp only [activeSegments]
    rw [List.find?_cons_of_pos _ (by simp)]
    rfl

theorem stop_preserves_queue_witness :
    (⟨4, JobType.polish, 1⟩ : QItem) ∈ (stopRecording stStop).queue ∧
    (stStop.status ≠ .idle →
      activeSegments (stopRecording stStop) = some (finalizeCurrentSegment stStop).segments) :=
  stop_preserves_queue stStop ⟨4, JobType.polish, 1⟩ (by decide)

/-- C9 counterexample: cleanText works on UTF-16 code units, not logical
characters.  A run of seven copies of U+1D54F (a surrogate pair) is left as
three copies by the code-unit pass, whereas collapsing at the
logical-character level yields a single character. -/
theorem clean_code_units_cx :
    cleanText (utf16 (List.replicate 7 75599)) = utf16 [75599, 75599, 75599] ∧
    cleanText (List.replicate 7 75599) = [75599] ∧
    cleanText (utf16 (List.replicate 7 75599)) ≠ utf16 (cleanText (List.replicate 7 75599)) := by
  decide

/-- C9 amended: for strings of BMP characters — which covers all Latin and
CJK text — each logical character is a single UTF-16 code unit, so the
code-unit passes do treat the logical character as the repeat unit; the
guarantee does not extend to multi-code-unit (astral) characters. -/
theorem clean_bmp_units (l : List Nat) (h : ∀ c ∈ l, c < 65536) :
    cleanText (utf16 l) = cleanText l := by
  rw [utf16_bmp l h]

theorem clean_bmp_units_witness :
    cleanText (utf16 [22909, 21527, 22909, 21527]) = cleanText [22909, 21527, 22909, 21527] :=
  clean_bmp_units [22909, 21527, 22909, 21527] (by decide)
